import Mathlib

/-!
Shallow embedding of `src/mesh/src/format/obj.rs` (rendy's OBJ mesh loader).

Scalar model: the source uses `f64` / `f32`; we model both by `ℚ` (exact
arithmetic).  All claims handled here are either structural (lengths,
ordering, index assignment) or are witnessed at inputs where IEEE-754 double
arithmetic is exact (small integers and halves), so the rational model agrees
with the source bit-for-bit at every concrete evaluation used below.
Caveats stated where relevant: Lean's `ℚ` division by zero yields `0` while
`f64` yields `NaN`/`Inf`; no theorem below depends on a value produced by a
division by zero.
-/

namespace ObjRs

/-- Scalar type modelling `f64`/`f32` (exact rational arithmetic). -/
abbrev F := ℚ

/-- `wavefront_obj::obj::Vertex` — also used for normals (`obj::Normal` is an
alias of `Vertex` in the crate). -/
structure Vertex where
  x : F
  y : F
  z : F
deriving DecidableEq, Repr

/-- `wavefront_obj::obj::TVertex` (texture vertex, `u`/`v`/`w`). -/
structure TVertex where
  u : F
  v : F
  w : F
deriving DecidableEq, Repr

/-- `wavefront_obj::obj::VTNIndex`: `(usize, Option<usize>, Option<usize>)` —
position index, optional texture index, optional normal index (0-based, the
crate's parser subtracts 1 from the 1-based OBJ text indices). -/
structure VTNIndex where
  v : Nat
  t : Option Nat
  n : Option Nat
deriving DecidableEq, Repr

/-- `wavefront_obj::obj::Primitive`. -/
inductive Primitive where
  | Point (i : VTNIndex)
  | Line (i j : VTNIndex)
  | Triangle (i1 i2 i3 : VTNIndex)
deriving DecidableEq, Repr

/-- `wavefront_obj::obj::Shape`; the crate also stores group and smoothing
group data, which `load_from_data` never reads, so it is omitted. -/
structure Shape where
  primitive : Primitive
deriving DecidableEq, Repr

/-- `wavefront_obj::obj::Geometry`. -/
structure Geometry where
  material_name : Option String
  shapes : List Shape
deriving DecidableEq, Repr

/-- `wavefront_obj::obj::Object`. -/
structure Object where
  name : String
  vertices : List Vertex
  tex_vertices : List TVertex
  normals : List Vertex
  geometry : List Geometry
deriving DecidableEq, Repr

/-- `wavefront_obj::obj::ObjSet`. -/
structure ObjSet where
  material_library : Option String
  objects : List Object
deriving DecidableEq, Repr

/-- rendy `Position([f32; 3])`. -/
structure Position where
  x : F
  y : F
  z : F
deriving DecidableEq, Repr

/-- rendy `Normal([f32; 3])`. -/
structure Normal where
  x : F
  y : F
  z : F
deriving DecidableEq, Repr

/-- rendy `TexCoord([f32; 2])`. -/
structure TexCoord where
  u : F
  v : F
deriving DecidableEq, Repr

/-- rendy `Tangent([f32; 4])`. -/
structure Tangent where
  x : F
  y : F
  z : F
  w : F
deriving DecidableEq, Repr

/-- Models `f64::signum()` followed by `as i8`, as applied in `handedness`.
Rust's `f64::signum` returns `-1.0` for negative inputs and `-0.0`, and
`1.0` for positive inputs, `+0.0` and `+Inf`.  The argument in `handedness`
is a sum of squares, which in IEEE-754 arithmetic on finite inputs is either
positive, `+0.0`, or `+Inf` (never `-0.0` or `NaN`), and Rust maps all of
those to `1.0`.  Hence `if q < 0 then -1 else 1` agrees with the source for
every reachable argument. -/
def f64_signum (q : F) : Int :=
  if q < 0 then -1 else 1

/-- `handedness` from `obj.rs` lines 132–149: edge vectors `d = b − a`,
`e = c − a`, their cross product, and the signum of the squared magnitude of
the cross product, cast to `i8`. -/
def handedness (a b c : Vertex) : Int :=
  let d : Vertex := ⟨b.x - a.x, b.y - a.y, b.z - a.z⟩
  let e : Vertex := ⟨c.x - a.x, c.y - a.y, c.z - a.z⟩
  let cross : Vertex :=
    ⟨d.y * e.z - d.z * e.y, d.z * e.x - d.x * e.z, d.x * e.y - d.y * e.x⟩
  f64_signum (cross.x * cross.x + cross.y * cross.y + cross.z * cross.z)

/-- The deduplication key: the `(VTNIndex, i8)` pairs collected into the
`BTreeSet` in `load_from_data`. -/
abbrev Key := VTNIndex × Int

/-- Rust's derived `Ord` on `Option<usize>`: `None < Some _`, and `Some`
compares by content. -/
def optLt : Option Nat → Option Nat → Bool
  | none, none => false
  | none, some _ => true
  | some _, none => false
  | some a, some b => decide (a < b)

/-- Rust's derived lexicographic `Ord` on `VTNIndex(usize, Option<usize>,
Option<usize>)` (strict part). -/
def vtnLt (a b : VTNIndex) : Bool :=
  decide (a.v < b.v) ||
    (decide (a.v = b.v) &&
      (optLt a.t b.t || (decide (a.t = b.t) && optLt a.n b.n)))

/-- Rust's derived lexicographic `Ord` on the tuple `(VTNIndex, i8)` (strict
part): the order by which the `BTreeSet` of keys is organised and iterated. -/
def keyLt (a b : Key) : Bool :=
  vtnLt a.1 b.1 || (decide (a.1 = b.1) && decide (a.2 < b.2))

theorem optLt_irrefl (a : Option Nat) : optLt a a = false := by
  cases a <;> simp [optLt]

theorem optLt_trans {a b c : Option Nat} :
    optLt a b = true → optLt b c = true → optLt a c = true := by
  cases a <;> cases b <;> cases c <;> simp [optLt] <;> omega

theorem optLt_total {a b : Option Nat} :
    optLt a b = false → optLt b a = false → a = b := by
  cases a <;> cases b <;> simp [optLt] <;> omega

theorem vtnLt_irrefl (a : VTNIndex) : vtnLt a a = false := by
  simp [vtnLt, optLt_irrefl]

theorem vtnLt_trans {a b c : VTNIndex} :
    vtnLt a b = true → vtnLt b c = true → vtnLt a c = true := by
  obtain ⟨av, at_, an⟩ := a
  obtain ⟨bv, bt, bn⟩ := b
  obtain ⟨cv, ct, cn⟩ := c
  rcases at_ with _ | at_ <;> rcases bt with _ | bt <;> rcases ct with _ | ct <;>
    rcases an with _ | an <;> rcases bn with _ | bn <;> rcases cn with _ | cn <;>
    simp [vtnLt, optLt] <;> omega

theorem vtnLt_total {a b : VTNIndex} :
    vtnLt a b = false → vtnLt b a = false → a = b := by
  obtain ⟨av, at_, an⟩ := a
  obtain ⟨bv, bt, bn⟩ := b
  rcases at_ with _ | at_ <;> rcases bt with _ | bt <;>
    rcases an with _ | an <;> rcases bn with _ | bn <;>
    simp [vtnLt, optLt] <;> omega

theorem vtnLt_asymm {a b : VTNIndex} :
    vtnLt a b = true → vtnLt b a = true → False := by
  intro h1 h2
  have := vtnLt_trans h1 h2
  rw [vtnLt_irrefl] at this
  exact Bool.false_ne_true this

theorem keyLt_irrefl (a : Key) : keyLt a a = false := by
  simp [keyLt, vtnLt_irrefl]

theorem keyLt_trans {a b c : Key} :
    keyLt a b = true → keyLt b c = true → keyLt a c = true := by
  simp only [keyLt, Bool.or_eq_true, Bool.and_eq_true, decide_eq_true_eq]
  rintro (h1 | ⟨h1, h1'⟩) (h2 | ⟨h2, h2'⟩)
  · exact Or.inl (vtnLt_trans h1 h2)
  · exact Or.inl (h2 ▸ h1)
  · exact Or.inl (h1 ▸ h2)
  · exact Or.inr ⟨h1.trans h2, h1'.trans h2'⟩

theorem keyLt_total {a b : Key} :
    keyLt a b = false → keyLt b a = false → a = b := by
  obtain ⟨a1, a2⟩ := a
  obtain ⟨b1, b2⟩ := b
  simp only [keyLt, Bool.or_eq_false_iff, Bool.and_eq_false_iff,
    decide_eq_false_iff_not, not_lt] at *
  rintro ⟨hv1, h1⟩ ⟨hv2, h2⟩
  have h1eq : a1 = b1 := vtnLt_total hv1 hv2
  subst h1eq
  rcases h1 with h1 | h1
  · exact absurd rfl h1
  rcases h2 with h2 | h2
  · exact absurd rfl h2
  exact Prod.ext rfl (le_antisymm h2 h1)

theorem keyLt_asymm {a b : Key} :
    keyLt a b = true → keyLt b a = true → False := by
  intro h1 h2
  have := keyLt_trans h1 h2
  rw [keyLt_irrefl] at this
  exact Bool.false_ne_true this

theorem keyLt_ne {a b : Key} (h : keyLt a b = true) : a ≠ b := by
  rintro rfl
  rw [keyLt_irrefl] at h
  exact Bool.false_ne_true h

/-- Insertion into a strictly ascending list, keeping it strictly ascending
and duplicate-free: the effect of `BTreeSet::insert` on the (sorted)
sequence of stored keys. -/
def sortedInsert (k : Key) : List Key → List Key
  | [] => [k]
  | x :: xs =>
    if keyLt k x then k :: x :: xs
    else if k = x then x :: xs
    else x :: sortedInsert k xs

/-- `tris.iter().flatten().collect::<BTreeSet<_>>()` followed by in-order
iteration of the set: the strictly ascending duplicate-free list of all
inserted keys.  (`load_from_data` collects references `&(VTNIndex, i8)`;
references compare by pointee, so the set of references is modelled by a
set of values.) -/
def btreeSet (ks : List Key) : List Key :=
  ks.foldl (fun s k => sortedInsert k s) []

theorem mem_sortedInsert (a k : Key) (l : List Key) :
    a ∈ sortedInsert k l ↔ a = k ∨ a ∈ l := by
  induction l with
  | nil => simp [sortedInsert]
  | cons x xs ih =>
    simp only [sortedInsert]
    split
    · exact List.mem_cons
    · split
      · next heq =>
        subst heq
        rw [List.mem_cons]
        tauto
      · simp only [List.mem_cons, ih]
        tauto

theorem pairwise_sortedInsert (k : Key) (l : List Key)
    (h : l.Pairwise (fun a b => keyLt a b = true)) :
    (sortedInsert k l).Pairwise (fun a b => keyLt a b = true) := by
  induction l with
  | nil => simp [sortedInsert]
  | cons x xs ih =>
    rw [List.pairwise_cons] at h
    obtain ⟨hx, hxs⟩ := h
    simp only [sortedInsert]
    split
    · next hlt =>
      refine List.Pairwise.cons ?_ (List.Pairwise.cons hx hxs)
      intro b hb
      rcases List.mem_cons.mp hb with rfl | hb
      · exact hlt
      · exact keyLt_trans hlt (hx b hb)
    · next hnlt =>
      split
      · exact List.Pairwise.cons hx hxs
      · next hne =>
        refine List.Pairwise.cons ?_ (ih hxs)
        intro b hb
        rcases (mem_sortedInsert b k xs).mp hb with rfl | hb
        · rcases hxb : keyLt x b with _ | _
          · exact absurd (keyLt_total (Bool.of_not_eq_true hnlt) hxb) hne
          · rfl
        · exact hx b hb

theorem pairwise_btreeSet (ks : List Key) :
    (btreeSet ks).Pairwise (fun a b => keyLt a b = true) := by
  suffices h : ∀ acc : List Key,
      acc.Pairwise (fun a b => keyLt a b = true) →
      (ks.foldl (fun s k => sortedInsert k s) acc).Pairwise
        (fun a b => keyLt a b = true) by
    exact h [] List.Pairwise.nil
  induction ks with
  | nil => intro acc hacc; exact hacc
  | cons k ks ih =>
    intro acc hacc
    exact ih _ (pairwise_sortedInsert k acc hacc)

theorem mem_btreeSet (a : Key) (ks : List Key) :
    a ∈ btreeSet ks ↔ a ∈ ks := by
  suffices h : ∀ acc : List Key,
      (a ∈ ks.foldl (fun s k => sortedInsert k s) acc ↔ a ∈ acc ∨ a ∈ ks) by
    simpa using h []
  induction ks with
  | nil => intro acc; simp
  | cons k ks ih =>
    intro acc
    rw [List.foldl_cons, ih (sortedInsert k acc), mem_sortedInsert]
    simp
    tauto

theorem nodup_btreeSet (ks : List Key) : (btreeSet ks).Nodup := by
  exact (pairwise_btreeSet ks).imp (fun h => keyLt_ne h)

theorem btreeSet_perm_dedup (ks : List Key) :
    (btreeSet ks).Perm ks.dedup := by
  refine (List.perm_ext_iff_of_nodup (nodup_btreeSet ks) ks.nodup_dedup).mpr ?_
  intro a
  rw [mem_btreeSet, List.mem_dedup]

theorem length_btreeSet (ks : List Key) :
    (btreeSet ks).length = ks.dedup.length :=
  (btreeSet_perm_dedup ks).length_eq

/-- Whether a shape's primitive is a triangle (the only case contributing to
`tris` in `load_from_data`). -/
def Shape.isTriangle (s : Shape) : Bool :=
  match s.primitive with
  | .Triangle _ _ _ => true
  | _ => false

/-- The `tris` computation of `load_from_data` lines 44–58:
`geometry.shapes.iter().flat_map(...).collect::<Vec<_>>()`, producing, per
triangle shape, the three `(VTNIndex, handedness)` corner keys in corner
order; other primitives are skipped.  Rust's `object.vertices[i.0]` is an
unchecked index that panics when out of range; a panic is modelled by
`none`. -/
def trisOf (o : Object) : List Shape → Option (List (List Key))
  | [] => some []
  | s :: rest =>
    match s.primitive with
    | .Triangle i1 i2 i3 =>
      match o.vertices.get? i1.v, o.vertices.get? i2.v, o.vertices.get? i3.v with
      | some a, some b, some c =>
        let h := handedness a b c
        (trisOf o rest).map (fun ts => [(i1, h), (i2, h), (i3, h)] :: ts)
      | _, _, _ => none
    | _ => trisOf o rest

/-- Position resolution for one key (`load_from_data` lines 62–68):
`object.vertices[i.0]` with `f64 → f32` narrowing (exact in our scalar
model); `none` models the out-of-range panic. -/
def resolvePosition (o : Object) (k : Key) : Option Position :=
  (o.vertices.get? k.1.v).map (fun v => ⟨v.x, v.y, v.z⟩)

/-- Normal resolution for one key (`load_from_data` lines 70–80): the
referenced normal when the normal index is present, else `[0, 0, 0]`. -/
def resolveNormal (o : Object) (k : Key) : Option Normal :=
  match k.1.n with
  | some j => (o.normals.get? j).map (fun v => ⟨v.x, v.y, v.z⟩)
  | none => some ⟨0, 0, 0⟩

/-- Texture-coordinate resolution for one key (`load_from_data` lines
82–92): the referenced `(u, v)` when the texture index is present (the
`w` component is dropped by the `..` pattern), else `[0, 0]`. -/
def resolveTexCoord (o : Object) (k : Key) : Option TexCoord :=
  match k.1.t with
  | some j => (o.tex_vertices.get? j).map (fun v => ⟨v.u, v.v⟩)
  | none => some ⟨0, 0⟩

/-- `iter().map(f).collect::<Vec<_>>()` where evaluating `f` may panic
(`none`): elements are produced in order and the first panic aborts the
collection. -/
def mapPanic (f : α → Option β) : List α → Option (List β)
  | [] => some []
  | a :: as =>
    match f a with
    | none => none
    | some b => (mapPanic f as).map (fun bs => b :: bs)

/-- The `positions` array: `indices.iter().map(...).collect()` over the
in-order enumeration of the dedup set. -/
def positionsOf (o : Object) (dedup : List Key) : Option (List Position) :=
  mapPanic (resolvePosition o) dedup

/-- The `normals` array (same enumeration). -/
def normalsOf (o : Object) (dedup : List Key) : Option (List Normal) :=
  mapPanic (resolveNormal o) dedup

/-- The `tex_coords` array (same enumeration). -/
def texCoordsOf (o : Object) (dedup : List Key) : Option (List TexCoord) :=
  mapPanic (resolveTexCoord o) dedup

/-- The `index_map`/`reindex` computation (`load_from_data` lines 94–104):
`index_map` sends the key at position `v` of the set's in-order enumeration
to `v as u32`, and `reindex` maps every corner key of every triangle, in
triangle order and corner order, through that map.  `List.indexOf` into the
sorted enumeration is exactly that map for keys present in the set, and
every key of `tris.flatten` is present (the set was built from the same
list), so the `HashMap` lookup never misses.  Indices are modelled as `Nat`;
the `as u32` cast in the source is lossless for fewer than `2^32` distinct
keys, and no claim here concerns that overflow. -/
def reindexOf (tris : List (List Key)) : List Nat :=
  tris.flatten.map (fun k => (btreeSet tris.flatten).indexOf k)

/-- rendy's `ObjGeometry` adapter handed to `mikktspace::generate_tangents`
(obj.rs lines 153–196). -/
structure ObjGeometry where
  positions : List Position
  normals : List Normal
  tex_coords : List TexCoord
  indices : List Nat
  tangents : List Tangent
deriving DecidableEq, Repr

/-- `ObjGeometry::new`: tangent accumulators start at `[0, 0, 0, 1]`, one
per output vertex. -/
def ObjGeometry.new (positions : List Position) (normals : List Normal)
    (tex_coords : List TexCoord) (indices : List Nat) : ObjGeometry :=
  ⟨positions, normals, tex_coords, indices,
    List.replicate positions.length ⟨0, 0, 0, 1⟩⟩

/-- `ObjGeometry::accumulate_tangent`: add the first three components of the
contribution into the accumulator at `index`, overwrite the fourth.  Rust's
`&mut self.tangents[index]` panics when `index` is out of range; `none`
models the panic. -/
def ObjGeometry.accumulate_tangent (g : ObjGeometry) (index : Nat)
    (other : Tangent) : Option ObjGeometry :=
  match g.tangents.get? index with
  | none => none
  | some acc =>
    some { g with tangents :=
      g.tangents.set index ⟨acc.x + other.x, acc.y + other.y,
        acc.z + other.z, other.w⟩ }

/-- The iterate of `ObjGeometry::accumulate_tangent` over a sequence of
(output-vertex index, contribution) pairs, in order; this is the
accumulation process `set_tangent_encoded` drives, after the
`self.indices[face * 3 + vert]` resolution. -/
def accumulateAll : ObjGeometry → List (Nat × Tangent) → Option ObjGeometry
  | g, [] => some g
  | g, c :: cs =>
    match g.accumulate_tangent c.1 c.2 with
    | none => none
    | some g' => accumulateAll g' cs

/-- `ObjGeometry::normalize_tangent` (obj.rs lines 185–188): divides the
first three components by `len = x*x + y*y + z*z` — the *squared* Euclidean
length — and carries the fourth through.  (In our scalar model a division by
zero yields `0` where `f64` yields `NaN`; no theorem below evaluates this
function at a zero accumulator.) -/
def ObjGeometry.normalize_tangent (t : Tangent) : Tangent :=
  let len := t.x * t.x + t.y * t.y + t.z * t.z
  ⟨t.x / len, t.y / len, t.z / len, t.w⟩

/-- `ObjGeometry::get_tangents`. -/
def ObjGeometry.get_tangents (g : ObjGeometry) : List Tangent :=
  g.tangents.map ObjGeometry.normalize_tangent

/-- `Geometry::num_faces` for the adapter. -/
def ObjGeometry.num_faces (g : ObjGeometry) : Nat :=
  g.indices.length / 3

/-- `Geometry::set_tangent_encoded`: route the contribution for corner
`vert` of face `face` through the index buffer to its output vertex's
accumulator.  `self.indices[face * 3 + vert]` panics when out of range
(`none`). -/
def ObjGeometry.set_tangent_encoded (g : ObjGeometry) (tangent : Tangent)
    (face vert : Nat) : Option ObjGeometry :=
  match g.indices.get? (face * 3 + vert) with
  | none => none
  | some i => g.accumulate_tangent i tangent

/-- Modelled from the spec: `mikktspace::generate_tangents` is an external
collaborator ("deterministic external tangent-space algorithm", spec §4.5
Strategy A) whose code is not part of this repository.  Per the spec it
interacts with the geometry only through the accessor interface, delivering
a sequence of per-(face, corner) tangent contributions via
`set_tangent_encoded` and returning a success verdict (`false` when the
geometry is "unsuitable").  A run is modelled as that call sequence plus
the verdict. -/
structure TangentRun where
  success : Bool
  calls : List (Tangent × Nat × Nat)

/-- Replay a modelled call sequence of `set_tangent_encoded` against the
adapter state, in order; a panic (`none`) aborts. -/
def replayCalls : ObjGeometry → List (Tangent × Nat × Nat) → Option ObjGeometry
  | g, [] => some g
  | g, c :: cs =>
    match g.set_tangent_encoded c.1 c.2.1 c.2.2 with
    | none => none
    | some g' => replayCalls g' cs

/-- Replay a modelled `generate_tangents` run against the adapter state. -/
def runTangent (r : TangentRun) (g : ObjGeometry) :
    Option (Bool × ObjGeometry) :=
  (replayCalls g r.calls).map (fun g' => (r.success, g'))

/-- The per-geometry data handed to the external `MeshBuilder` collaborator
(`builder.add_vertices(positions/normals/tangents/tex_coords)` and
`builder.set_indices(reindex)`). -/
structure MeshData where
  positions : List Position
  normals : List Normal
  tangents : List Tangent
  tex_coords : List TexCoord
  indices : List Nat
deriving DecidableEq, Repr

/-- The observable outcome of `load_from_data`: a Rust panic (unchecked
indexing), an `Err(failure::Error)` with its message, or `Ok` with one
`(MeshBuilder, Option<String>)` pair per geometry. -/
inductive LoadResult (α : Type) where
  | panicked
  | error (msg : String)
  | ok (val : α)
deriving DecidableEq, Repr

/-- One iteration of the geometry loop of `load_from_data` (lines 36–126),
parametrised by the modelled external tangent algorithm `runOf` (a
deterministic function of the adapter state it reads). -/
def loadGeometry (runOf : ObjGeometry → TangentRun) (o : Object)
    (g : Geometry) : LoadResult (MeshData × Option String) :=
  match trisOf o g.shapes with
  | none => .panicked
  | some tris =>
    let dedup := btreeSet tris.flatten
    match positionsOf o dedup, normalsOf o dedup, texCoordsOf o dedup with
    | some positions, some normals, some tex_coords =>
      let reindex := reindexOf tris
      let obj_geom := ObjGeometry.new positions normals tex_coords reindex
      match runTangent (runOf obj_geom) obj_geom with
      | none => .panicked
      | some (false, _) => .error "Geometry is unsuitable for tangent generation"
      | some (true, g') =>
        .ok (⟨positions, normals, g'.get_tangents, tex_coords, reindex⟩,
          g.material_name)
    | _, _, _ => .panicked

/-- The geometry loop of one object; an error or panic aborts the whole
load (the source `return Err(...)` exits `load_from_data`). -/
def loadGeoms (runOf : ObjGeometry → TangentRun) (o : Object) :
    List Geometry → LoadResult (List (MeshData × Option String))
  | [] => .ok []
  | g :: gs =>
    match loadGeometry runOf o g with
    | .panicked => .panicked
    | .error e => .error e
    | .ok x =>
      match loadGeoms runOf o gs with
      | .panicked => .panicked
      | .error e => .error e
      | .ok xs => .ok (x :: xs)

/-- The object loop of `load_from_data`. -/
def loadObjects (runOf : ObjGeometry → TangentRun) :
    List Object → LoadResult (List (MeshData × Option String))
  | [] => .ok []
  | o :: os =>
    match loadGeoms runOf o o.geometry with
    | .panicked => .panicked
    | .error e => .error e
    | .ok xs =>
      match loadObjects runOf os with
      | .panicked => .panicked
      | .error e => .error e
      | .ok ys => .ok (xs ++ ys)

/-- `load_from_data` (obj.rs lines 26–130), for an already-parsed `ObjSet`
(`obj::parse` and UTF-8 decoding in `load_from_obj` belong to external
collaborators). -/
def load_from_data (runOf : ObjGeometry → TangentRun) (s : ObjSet) :
    LoadResult (List (MeshData × Option String)) :=
  loadObjects runOf s.objects

/-- The squared-magnitude argument of `f64_signum` in `handedness` is a sum
of squares, hence never negative, so `handedness` returns `1` for *every*
triangle — including oppositely wound and even degenerate ones. -/
theorem handedness_eq_one (a b c : Vertex) : handedness a b c = 1 := by
  simp only [handedness]
  have h1 := mul_self_nonneg
    ((b.y - a.y) * (c.z - a.z) - (b.z - a.z) * (c.y - a.y))
  have h2 := mul_self_nonneg
    ((b.z - a.z) * (c.x - a.x) - (b.x - a.x) * (c.z - a.z))
  have h3 := mul_self_nonneg
    ((b.x - a.x) * (c.y - a.y) - (b.y - a.y) * (c.x - a.x))
  unfold f64_signum
  rw [if_neg (not_lt.mpr (by linarith))]

theorem mapPanic_length {f : α → Option β} :
    ∀ {l : List α} {l' : List β}, mapPanic f l = some l' → l'.length = l.length := by
  intro l
  induction l with
  | nil =>
    intro l' h
    simp only [mapPanic, Option.some.injEq] at h
    subst h
    rfl
  | cons a as ih =>
    intro l' h
    simp only [mapPanic] at h
    rcases hfa : f a with _ | b
    · rw [hfa] at h; exact absurd h (by simp)
    · rw [hfa] at h
      rcases hrest : mapPanic f as with _ | bs
      · rw [hrest] at h; exact absurd h (by simp)
      · rw [hrest] at h
        simp at h
        subst h
        simp [ih hrest]

theorem mapPanic_isSome {f : α → Option β} :
    ∀ {l : List α}, (∀ a ∈ l, (f a).isSome) → ∃ l', mapPanic f l = some l' := by
  intro l
  induction l with
  | nil => intro _; exact ⟨[], rfl⟩
  | cons a as ih =>
    intro h
    obtain ⟨b, hb⟩ := Option.isSome_iff_exists.mp (h a (List.mem_cons_self a as))
    obtain ⟨bs, hbs⟩ := ih (fun x hx => h x (List.mem_cons_of_mem a hx))
    exact ⟨b :: bs, by simp [mapPanic, hb, hbs]⟩

theorem mapPanic_get {f : α → Option β} :
    ∀ {l : List α} {l' : List β}, mapPanic f l = some l' →
      ∀ (i : Nat) (h : i < l.length) (h' : i < l'.length),
        f (l.get ⟨i, h⟩) = some (l'.get ⟨i, h'⟩) := by
  intro l
  induction l with
  | nil => intro l' _ i h; exact absurd h (by simp)
  | cons a as ih =>
    intro l' hmap i h h'
    simp only [mapPanic] at hmap
    rcases hfa : f a with _ | b
    · rw [hfa] at hmap; exact absurd hmap (by simp)
    rw [hfa] at hmap
    rcases hrest : mapPanic f as with _ | bs
    · rw [hrest] at hmap; exact absurd hmap (by simp)
    rw [hrest] at hmap
    simp at hmap
    subst hmap
    match i with
    | 0 => exact hfa
    | i + 1 =>
      exact ih hrest i (by simpa using h) (by simpa using h')

/-- When `trisOf` does not panic, it yields one three-corner entry per
triangle shape, skipping the other primitives. -/
theorem trisOf_shape (o : Object) :
    ∀ {shapes : List Shape} {tris : List (List Key)},
      trisOf o shapes = some tris →
      tris.length = shapes.countP (fun s => s.isTriangle) ∧
        ∀ t ∈ tris, t.length = 3 := by
  intro shapes
  induction shapes with
  | nil =>
    intro tris h
    simp only [trisOf, Option.some.injEq] at h
    subst h
    simp
  | cons s rest ih =>
    intro tris h
    simp only [trisOf] at h
    cases hs : s.primitive with
    | Point i =>
      simp only [hs] at h
      obtain ⟨hlen, hall⟩ := ih h
      exact ⟨by simp [List.countP_cons, Shape.isTriangle, hs, hlen], hall⟩
    | Line i j =>
      simp only [hs] at h
      obtain ⟨hlen, hall⟩ := ih h
      exact ⟨by simp [List.countP_cons, Shape.isTriangle, hs, hlen], hall⟩
    | Triangle i1 i2 i3 =>
      simp only [hs] at h
      rcases h1 : o.vertices.get? i1.v with _ | a <;> rw [h1] at h
      · exact absurd h (by simp)
      rcases h2 : o.vertices.get? i2.v with _ | b <;> rw [h2] at h
      · exact absurd h (by simp)
      rcases h3 : o.vertices.get? i3.v with _ | c <;> rw [h3] at h
      · exact absurd h (by simp)
      simp only at h
      rcases hrest : trisOf o rest with _ | ts <;> rw [hrest] at h
      · exact absurd h (by simp)
      simp at h
      subst h
      obtain ⟨hlen, hall⟩ := ih hrest
      refine ⟨by simp [List.countP_cons, Shape.isTriangle, hs, hlen], ?_⟩
      intro t ht
      rcases List.mem_cons.mp ht with rfl | ht
      · rfl
      · exact hall t ht

theorem flatten_length_of_three {tris : List (List Key)}
    (h : ∀ t ∈ tris, t.length = 3) :
    tris.flatten.length = 3 * tris.length := by
  induction tris with
  | nil => simp
  | cons t ts ih =>
    simp only [List.flatten_cons, List.length_append, List.length_cons]
    rw [h t (List.mem_cons_self t ts),
      ih (fun u hu => h u (List.mem_cons_of_mem t hu))]
    ring

theorem accumulate_tangent_length {g g' : ObjGeometry} {i : Nat} {t : Tangent}
    (h : g.accumulate_tangent i t = some g') :
    g'.tangents.length = g.tangents.length ∧ g'.indices = g.indices := by
  simp only [ObjGeometry.accumulate_tangent] at h
  rcases hg : g.tangents.get? i with _ | acc <;> rw [hg] at h
  · exact absurd h (by simp)
  · simp only [Option.some.injEq] at h
    subst h
    simp

theorem set_tangent_encoded_length {g g' : ObjGeometry} {t : Tangent}
    {face vert : Nat} (h : g.set_tangent_encoded t face vert = some g') :
    g'.tangents.length = g.tangents.length ∧ g'.indices = g.indices := by
  simp only [ObjGeometry.set_tangent_encoded] at h
  rcases hg : g.indices.get? (face * 3 + vert) with _ | i <;> rw [hg] at h
  · exact absurd h (by simp)
  · exact accumulate_tangent_length h

theorem replayCalls_length :
    ∀ {calls : List (Tangent × Nat × Nat)} {g g' : ObjGeometry},
      replayCalls g calls = some g' →
      g'.tangents.length = g.tangents.length := by
  intro calls
  induction calls with
  | nil =>
    intro g g' h
    simp only [replayCalls, Option.some.injEq] at h
    subst h; rfl
  | cons c cs ih =>
    intro g g' h
    simp only [replayCalls] at h
    rcases hc : g.set_tangent_encoded c.1 c.2.1 c.2.2 with _ | g1 <;> rw [hc] at h
    · exact absurd h (by simp)
    · exact (ih h).trans (set_tangent_encoded_length hc).1

/-! ## Claim C1 — winding separation -/

/-- Corner references shared by both triangles of the C1 counterexample. -/
def cw1 : VTNIndex := ⟨0, none, none⟩

def cw2 : VTNIndex := ⟨1, none, none⟩

def cw3 : VTNIndex := ⟨2, none, none⟩

/-- Two triangles over the same three attribute-index triples with opposite
orientation: `(cw1, cw2, cw3)` and `(cw1, cw3, cw2)`. -/
def cwGeom : Geometry :=
  ⟨none, [⟨.Triangle cw1 cw2 cw3⟩, ⟨.Triangle cw1 cw3 cw2⟩]⟩

/-- A non-degenerate triangle: vertices `(0,0,0)`, `(1,0,0)`, `(0,1,0)`
(exactly representable as `f64`). -/
def cwObj : Object :=
  ⟨"cw", [⟨0, 0, 0⟩, ⟨1, 0, 0⟩, ⟨0, 1, 0⟩], [], [], [cwGeom]⟩

/-- The corner keys `load_from_data` computes for `cwObj`. -/
def cwTris : List (List Key) :=
  [[(cw1, 1), (cw2, 1), (cw3, 1)], [(cw1, 1), (cw3, 1), (cw2, 1)]]

/-- **C1, refuted.**  The claim asserts that two triangles sharing all
attribute indices but oppositely wound receive disjoint sets of output
vertex indices.  In the code, `handedness` takes the signum of the
*squared* magnitude of the cross product, which never distinguishes
orientation: it is invariant under swapping two corners (first conjunct; in
fact it is constantly `1`, `handedness_eq_one`).  Evaluating the pipeline on
a concrete non-degenerate pair of oppositely wound triangles over identical
attribute indices: both triangles get handedness `1`, the dedup keys
coincide, the index buffer is `[0,1,2,0,2,1]`, and the two triangles' sets
of output vertex indices are *equal* (`{0,1,2}`), not disjoint. -/
theorem c1_winding_not_separated :
    (∀ a b c : Vertex, handedness a b c = handedness a c b) ∧
    trisOf cwObj cwGeom.shapes = some cwTris ∧
    reindexOf cwTris = [0, 1, 2, 0, 2, 1] ∧
    ((reindexOf cwTris).take 3).toFinset = ((reindexOf cwTris).drop 3).toFinset := by
  refine ⟨fun a b c => (handedness_eq_one a b c).trans (handedness_eq_one a c b).symm,
    ?_, by decide, by decide⟩
  simp [trisOf, cwObj, cwGeom, cwTris, cw1, cw2, cw3, handedness_eq_one]

/-! ## Claim C2 — tangent normalization -/

/-- **C2, refuted.**  The claim asserts each accumulated tangent is divided
by the *Euclidean length* of its first three components, yielding unit
length within `1e-4`.  `normalize_tangent` instead divides by the *squared*
length `x*x + y*y + z*z`.  At the accumulated tangent `[2, 0, 0, 1]` (all
arithmetic exact in `f64`) the code produces `[1/2, 0, 0, 1]`: its squared
Euclidean length is `1/4`, strictly below `(1 − 1e-4)²`, so its length is
not within `1e-4` of `1` (a correct normalization would give `[1, 0, 0, 1]`). -/
theorem c2_normalize_not_unit_length :
    ObjGeometry.normalize_tangent ⟨2, 0, 0, 1⟩ = ⟨1/2, 0, 0, 1⟩ ∧
    (((1:F)/2) * (1/2) + 0 * 0 + 0 * 0) < (1 - 1/10000) * (1 - 1/10000) := by
  constructor
  · simp only [ObjGeometry.normalize_tangent, Tangent.mk.injEq]
    norm_num
  · norm_num

/-! ## Claim C3 — out-of-range indices -/

/-- A face referencing vertex index `5` when only one vertex exists. -/
def oobVertexObj : Object :=
  ⟨"oobv", [⟨0, 0, 0⟩], [], [],
    [⟨none, [⟨.Triangle ⟨5, none, none⟩ ⟨6, none, none⟩ ⟨7, none, none⟩⟩]⟩]⟩

/-- A face referencing normal index `9` when no normals exist. -/
def oobNormalObj : Object :=
  ⟨"oobn", [⟨0, 0, 0⟩, ⟨1, 0, 0⟩, ⟨0, 1, 0⟩], [], [],
    [⟨none, [⟨.Triangle ⟨0, none, some 9⟩ ⟨1, none, some 9⟩ ⟨2, none, some 9⟩⟩]⟩]⟩

/-- A face referencing texture-coordinate index `4` when no texture
coordinates exist. -/
def oobTexObj : Object :=
  ⟨"oobt", [⟨0, 0, 0⟩, ⟨1, 0, 0⟩, ⟨0, 1, 0⟩], [], [],
    [⟨none, [⟨.Triangle ⟨0, some 4, none⟩ ⟨1, some 4, none⟩ ⟨2, some 4, none⟩⟩]⟩]⟩

/-- **C3, refuted on the code.**  The claim (and spec §7) requires a load
with an out-of-range vertex/normal/texture index to fail with a returned
`DataIntegrityError` value.  The code instead indexes the raw arrays
unchecked (`object.vertices[i.0]`, `object.normals[j]`,
`object.tex_vertices[j]`), which panics: for each of the three
out-of-range inputs, `load_from_data` ends in the panic outcome, not in an
`Err(...)` value, whatever the external tangent algorithm would do. -/
theorem c3_out_of_range_panics (runOf : ObjGeometry → TangentRun) :
    load_from_data runOf ⟨none, [oobVertexObj]⟩ = .panicked ∧
    load_from_data runOf ⟨none, [oobNormalObj]⟩ = .panicked ∧
    load_from_data runOf ⟨none, [oobTexObj]⟩ = .panicked := by
  refine ⟨?_, ?_, ?_⟩
  · simp [load_from_data, loadObjects, loadGeoms, loadGeometry, oobVertexObj,
      trisOf]
  · simp [load_from_data, loadObjects, loadGeoms, loadGeometry, oobNormalObj,
      trisOf, handedness_eq_one, positionsOf, normalsOf, texCoordsOf, mapPanic,
      resolvePosition, resolveNormal, resolveTexCoord, btreeSet, sortedInsert,
      keyLt, vtnLt, optLt]
  · simp [load_from_data, loadObjects, loadGeoms, loadGeometry, oobTexObj,
      trisOf, handedness_eq_one, positionsOf, normalsOf, texCoordsOf, mapPanic,
      resolvePosition, resolveNormal, resolveTexCoord, btreeSet, sortedInsert,
      keyLt, vtnLt, optLt]

/-! ## Claim C4 — index buffer structure -/

/-- **C4, confirmed.**  Whenever the triangle collection does not panic, the
output index buffer is the concatenation, in triangle order and corner
order, of the dense index of each corner key (first conjunct: `reindexOf`
equals the per-triangle dense-index triples flattened in order), and its
length is exactly `3 ×` the number of triangle shapes — non-triangle shapes
contribute nothing. -/
theorem c4_index_buffer_concat (o : Object) (g : Geometry)
    (tris : List (List Key)) (h : trisOf o g.shapes = some tris) :
    reindexOf tris =
      (tris.map (fun t =>
        t.map (fun k => (btreeSet tris.flatten).indexOf k))).flatten ∧
    (reindexOf tris).length = 3 * g.shapes.countP (fun s => s.isTriangle) := by
  obtain ⟨hlen, hall⟩ := trisOf_shape o h
  constructor
  · exact List.map_flatten ..
  · simp only [reindexOf, List.length_map]
    rw [flatten_length_of_three hall, hlen]

/-- Witness geometry for C4: one triangle, one point primitive (skipped). -/
def w4Geom : Geometry :=
  ⟨none, [⟨.Triangle ⟨0, none, none⟩ ⟨1, none, none⟩ ⟨2, none, none⟩⟩,
    ⟨.Point ⟨0, none, none⟩⟩]⟩

/-- Witness object for C4. -/
def w4Obj : Object :=
  ⟨"w4", [⟨0, 0, 0⟩, ⟨1, 0, 0⟩, ⟨0, 1, 0⟩], [], [], [w4Geom]⟩

/-- The corner keys of `w4Obj`: one triangle, handedness `1`. -/
def w4Tris : List (List Key) :=
  [[(⟨0, none, none⟩, 1), (⟨1, none, none⟩, 1), (⟨2, none, none⟩, 1)]]

theorem c4_index_buffer_concat_witness :
    trisOf w4Obj w4Geom.shapes = some w4Tris ∧
    (reindexOf w4Tris).length = 3 * w4Geom.shapes.countP (fun s => s.isTriangle) := by
  have h : trisOf w4Obj w4Geom.shapes = some w4Tris := by
    simp [trisOf, w4Obj, w4Geom, w4Tris, handedness_eq_one]
  exact ⟨h, (c4_index_buffer_concat w4Obj w4Geom w4Tris h).2⟩

/-! ## Claim C6 — parallel array lengths -/

/-- **C6, confirmed.**  For any corner-key list `ks`, if the three attribute
arrays are built over the dedup set without panicking, and any run of the
external tangent algorithm completes without panicking, then the positions,
normals, texture-coordinate, and (normalized) tangent arrays all have equal
length — the number of distinct keys collected from the triangle corners. -/
theorem c6_parallel_array_lengths (o : Object) (ks : List Key)
    (ps : List Position) (ns : List Normal) (ts : List TexCoord)
    (idx : List Nat) (run : TangentRun) (b : Bool) (g' : ObjGeometry)
    (hps : positionsOf o (btreeSet ks) = some ps)
    (hns : normalsOf o (btreeSet ks) = some ns)
    (hts : texCoordsOf o (btreeSet ks) = some ts)
    (hrt : runTangent run (ObjGeometry.new ps ns ts idx) = some (b, g')) :
    ps.length = ks.dedup.length ∧ ns.length = ks.dedup.length ∧
      ts.length = ks.dedup.length ∧ g'.get_tangents.length = ks.dedup.length := by
  have h1 := mapPanic_length hps
  have h2 := mapPanic_length hns
  have h3 := mapPanic_length hts
  have hlen := length_btreeSet ks
  refine ⟨h1.trans hlen, h2.trans hlen, h3.trans hlen, ?_⟩
  simp only [runTangent] at hrt
  rcases hr : replayCalls (ObjGeometry.new ps ns ts idx) run.calls with _ | g2 <;>
    rw [hr] at hrt
  · exact absurd hrt (by simp)
  · simp at hrt
    obtain ⟨_, hg⟩ := hrt
    subst hg
    have hpres := replayCalls_length hr
    simp only [ObjGeometry.get_tangents, List.length_map, hpres,
      ObjGeometry.new, List.length_replicate]
    exact h1.trans hlen

/-- Witness input for C6: one key over a one-vertex object, empty external
run. -/
def w6Obj : Object := ⟨"w6", [⟨0, 0, 0⟩], [], [], []⟩

/-- The single witness key. -/
def w6Key : Key := (⟨0, none, none⟩, 1)

theorem c6_parallel_array_lengths_witness :
    positionsOf w6Obj (btreeSet [w6Key]) = some [⟨0, 0, 0⟩] ∧
    normalsOf w6Obj (btreeSet [w6Key]) = some [⟨0, 0, 0⟩] ∧
    texCoordsOf w6Obj (btreeSet [w6Key]) = some [⟨0, 0⟩] ∧
    runTangent ⟨true, []⟩
      (ObjGeometry.new [⟨0, 0, 0⟩] [⟨0, 0, 0⟩] [⟨0, 0⟩] [0, 0, 0]) =
      some (true, ObjGeometry.new [⟨0, 0, 0⟩] [⟨0, 0, 0⟩] [⟨0, 0⟩] [0, 0, 0]) ∧
    [(⟨0, 0, 0⟩ : Position)].length = [w6Key].dedup.length := by
  refine ⟨rfl, rfl, rfl, rfl, ?_⟩
  exact (c6_parallel_array_lengths w6Obj [w6Key] _ _ _ [0, 0, 0] ⟨true, []⟩
    true _ rfl rfl rfl rfl).1

/-! ## Claim C7 — determinism -/

/-- Two strictly ascending lists with the same members are equal: the sorted
enumeration is a canonical form. -/
theorem sorted_unique_eq :
    ∀ {l1 l2 : List Key},
      l1.Pairwise (fun a b => keyLt a b = true) →
      l2.Pairwise (fun a b => keyLt a b = true) →
      (∀ a, a ∈ l1 ↔ a ∈ l2) → l1 = l2 := by
  intro l1
  induction l1 with
  | nil =>
    intro l2 _ _ hmem
    cases l2 with
    | nil => rfl
    | cons y ys => exact absurd ((hmem y).mpr (List.mem_cons_self y ys)) (by simp)
  | cons x xs ih =>
    intro l2 hp1 hp2 hmem
    cases l2 with
    | nil => exact absurd ((hmem x).mp (List.mem_cons_self x xs)) (by simp)
    | cons y ys =>
      rw [List.pairwise_cons] at hp1 hp2
      obtain ⟨hx, hxs⟩ := hp1
      obtain ⟨hy, hys⟩ := hp2
      have hxy : x = y := by
        rcases List.mem_cons.mp ((hmem x).mp (List.mem_cons_self x xs)) with
          h | hxin
        · exact h
        · rcases List.mem_cons.mp ((hmem y).mpr (List.mem_cons_self y ys)) with
            h | hyin
          · exact h.symm
          · exact absurd (keyLt_asymm (hy x hxin) (hx y hyin)) not_false
      subst hxy
      have htails : ∀ a, a ∈ xs ↔ a ∈ ys := by
        intro a
        constructor
        · intro ha
          rcases List.mem_cons.mp ((hmem a).mp (List.mem_cons_of_mem x ha)) with
            h | h
          · subst h
            exact absurd (hx a ha) (by simp [keyLt_irrefl])
          · exact h
        · intro ha
          rcases List.mem_cons.mp ((hmem a).mpr (List.mem_cons_of_mem x ha)) with
            h | h
          · subst h
            exact absurd (hy a ha) (by simp [keyLt_irrefl])
          · exact h
      rw [ih hxs hys htails]

/-- **C7, confirmed.**  The embedded conversion is a pure function of the
parsed input (first conjunct), and the one place where the source could in
principle be sensitive to an iteration order — the `BTreeSet` of keys — is
not: the sorted dedup enumeration depends only on the multiset of inserted
keys, not on insertion order (second conjunct), so output arrays and index
buffers are reproducible bit-for-bit. -/
theorem c7_deterministic :
    (∀ (runOf : ObjGeometry → TangentRun) (s : ObjSet),
      load_from_data runOf s = load_from_data runOf s) ∧
    (∀ ks ks' : List Key, ks.Perm ks' → btreeSet ks = btreeSet ks') := by
  refine ⟨fun _ _ => rfl, fun ks ks' hperm => ?_⟩
  refine sorted_unique_eq (pairwise_btreeSet ks) (pairwise_btreeSet ks') ?_
  intro a
  rw [mem_btreeSet, mem_btreeSet]
  exact hperm.mem_iff

/-- Two distinct keys for the C7 witness. -/
def w7a : Key := (⟨0, none, none⟩, 1)

/-- Second C7 witness key. -/
def w7b : Key := (⟨3, some 1, none⟩, 1)

theorem c7_deterministic_witness :
    btreeSet [w7a, w7b] = btreeSet [w7b, w7a] :=
  c7_deterministic.2 [w7a, w7b] [w7b, w7a] (List.Perm.swap w7b w7a [])

/-! ## Claim C8 — dense indices in sorted order -/

/-- In a strictly ascending list, the number of elements below the element
at position `i` is exactly `i`: positions are ranks. -/
theorem pairwise_countP_rank :
    ∀ {l : List Key},
      l.Pairwise (fun a b => keyLt a b = true) →
      ∀ (i : Nat) (h : i < l.length),
        l.countP (fun a => keyLt a (l.get ⟨i, h⟩)) = i := by
  intro l
  induction l with
  | nil => intro _ i h; exact absurd h (by simp)
  | cons x xs ih =>
    intro hp i h
    rw [List.pairwise_cons] at hp
    obtain ⟨hx, hxs⟩ := hp
    match i with
    | 0 =>
      have hget0 : (x :: xs).get ⟨0, h⟩ = x := rfl
      rw [hget0]
      refine List.countP_eq_zero.mpr ?_
      intro a ha
      rcases List.mem_cons.mp ha with rfl | ha
      · simp [keyLt_irrefl]
      · rcases hax : keyLt a x with _ | _
        · simp
        · exact absurd (keyLt_asymm hax (hx a ha)) not_false
    | i + 1 =>
      have hi : i < xs.length := by simpa using h
      have hget : (x :: xs).get ⟨i + 1, h⟩ = xs.get ⟨i, hi⟩ := rfl
      rw [hget, List.countP_cons, ih hxs i hi]
      have hxlt := hx _ (List.get_mem xs i hi)
      simp only [List.get_eq_getElem] at hxlt
      simp [hxlt]

/-- **C8, confirmed.**  The dedup set enumeration is strictly ascending in
the key order and contains exactly the collected corner keys; consequently
the dense index `enumerate` assigns to each key — its position in the
enumeration — equals the number of keys of the set that sort strictly below
it, i.e. its rank in the total order, not its first-occurrence position. -/
theorem c8_dense_index_is_sort_rank (ks : List Key) :
    (btreeSet ks).Pairwise (fun a b => keyLt a b = true) ∧
    (∀ k, k ∈ btreeSet ks ↔ k ∈ ks) ∧
    ∀ (i : Nat) (h : i < (btreeSet ks).length),
      (btreeSet ks).countP
        (fun a => keyLt a ((btreeSet ks).get ⟨i, h⟩)) = i :=
  ⟨pairwise_btreeSet ks, fun k => mem_btreeSet k ks,
    pairwise_countP_rank (pairwise_btreeSet ks)⟩

/-- Two keys inserted in reverse sort order for the C8 witness. -/
def w8lo : Key := (⟨1, none, none⟩, 1)

/-- The later-sorting C8 witness key (inserted first). -/
def w8hi : Key := (⟨2, none, none⟩, 1)

theorem c8_dense_index_is_sort_rank_witness :
    (1 : Nat) < (btreeSet [w8hi, w8lo]).length ∧
    (btreeSet [w8hi, w8lo]).countP
      (fun a => keyLt a ((btreeSet [w8hi, w8lo]).get ⟨1, by decide⟩)) = 1 :=
  ⟨by decide, (c8_dense_index_is_sort_rank [w8hi, w8lo]).2.2 1 (by decide)⟩

/-! ## Claim C9 — missing-attribute defaults -/

/-- **C9, confirmed.**  A dedup-set entry whose key has no texture index
yields output texture coordinate `[0, 0]`; one with no normal index yields
output normal `[0, 0, 0]`; and a missing index is *distinct* from any
present index — as a value (third and fourth conjuncts, for any index `j`,
including `j = 0`) and for the dedup set, which keeps a missing-index key
and a present-index key as two separate entries (fifth conjunct). -/
theorem c9_missing_attribute_defaults :
    (∀ (o : Object) (dedup : List Key) (ts : List TexCoord) (i : Nat)
      (h1 : i < dedup.length) (h2 : i < ts.length),
      texCoordsOf o dedup = some ts → (dedup.get ⟨i, h1⟩).1.t = none →
      ts.get ⟨i, h2⟩ = ⟨0, 0⟩) ∧
    (∀ (o : Object) (dedup : List Key) (ns : List Normal) (i : Nat)
      (h1 : i < dedup.length) (h2 : i < ns.length),
      normalsOf o dedup = some ns → (dedup.get ⟨i, h1⟩).1.n = none →
      ns.get ⟨i, h2⟩ = ⟨0, 0, 0⟩) ∧
    (∀ (v : Nat) (n : Option Nat) (j : Nat),
      (⟨v, none, n⟩ : VTNIndex) ≠ ⟨v, some j, n⟩) ∧
    (∀ (v : Nat) (t : Option Nat) (j : Nat),
      (⟨v, t, none⟩ : VTNIndex) ≠ ⟨v, t, some j⟩) ∧
    (∀ (v : Nat) (n : Option Nat) (j : Nat) (h : Int),
      (btreeSet [(⟨v, none, n⟩, h), (⟨v, some j, n⟩, h)]).length = 2) := by
  refine ⟨?_, ?_, by simp, by simp, ?_⟩
  · intro o dedup ts i h1 h2 hmap ht
    have := mapPanic_get hmap i h1 h2
    rw [resolveTexCoord, ht] at this
    simpa using this.symm
  · intro o dedup ns i h1 h2 hmap hn
    have := mapPanic_get hmap i h1 h2
    rw [resolveNormal, hn] at this
    simpa using this.symm
  · intro v n j h
    simp [btreeSet, sortedInsert, keyLt, vtnLt, optLt]

/-- Witness object for C9 (no attribute arrays needed: the witness key has
no texture or normal index). -/
def w9Obj : Object := ⟨"w9", [⟨0, 0, 0⟩], [], [], []⟩

/-- The single C9 witness key: position only. -/
def w9Key : Key := (⟨0, none, none⟩, 1)

theorem c9_missing_attribute_defaults_witness :
    texCoordsOf w9Obj [w9Key] = some [⟨0, 0⟩] ∧
    ([w9Key].get ⟨0, by decide⟩).1.t = none ∧
    ([(⟨0, 0⟩ : TexCoord)].get ⟨0, by decide⟩) = ⟨0, 0⟩ :=
  ⟨rfl, rfl,
    c9_missing_attribute_defaults.1 w9Obj [w9Key] [⟨0, 0⟩] 0
      (by decide) (by decide) rfl rfl⟩

/-! ## Claim C10 — tangent accumulation semantics -/

/-- The subsequence of contributions targeting output-vertex index `i`, in
order of arrival. -/
def contribsAt (i : Nat) (cs : List (Nat × Tangent)) : List Tangent :=
  cs.filterMap (fun c => if c.1 = i then some c.2 else none)

theorem contribsAt_cons_eq {i : Nat} {c : Nat × Tangent} {cs : List (Nat × Tangent)}
    (h : c.1 = i) : contribsAt i (c :: cs) = c.2 :: contribsAt i cs := by
  simp [contribsAt, List.filterMap_cons, h]

theorem contribsAt_cons_ne {i : Nat} {c : Nat × Tangent} {cs : List (Nat × Tangent)}
    (h : ¬c.1 = i) : contribsAt i (c :: cs) = contribsAt i cs := by
  simp [contribsAt, List.filterMap_cons, h]

/-- Exact effect of iterating `accumulate_tangent`: starting from any
adapter state, a completed contribution sequence leaves, at each index, the
initial entry with the componentwise sums of the contributions targeting
that index added to its first three components, and with its fourth
component *overwritten* by the last such contribution (or kept when none
arrive). -/
theorem accumulateAll_get :
    ∀ {cs : List (Nat × Tangent)} {g g' : ObjGeometry},
      accumulateAll g cs = some g' →
      g'.tangents.length = g.tangents.length ∧
      ∀ (i : Nat) (h : i < g'.tangents.length) (h0 : i < g.tangents.length),
        g'.tangents.get ⟨i, h⟩ =
          ⟨(g.tangents.get ⟨i, h0⟩).x + ((contribsAt i cs).map Tangent.x).sum,
           (g.tangents.get ⟨i, h0⟩).y + ((contribsAt i cs).map Tangent.y).sum,
           (g.tangents.get ⟨i, h0⟩).z + ((contribsAt i cs).map Tangent.z).sum,
           ((contribsAt i cs).getLast?).elim (g.tangents.get ⟨i, h0⟩).w
             Tangent.w⟩ := by
  intro cs
  induction cs with
  | nil =>
    intro g g' hacc
    simp only [accumulateAll, Option.some.injEq] at hacc
    subst hacc
    refine ⟨rfl, ?_⟩
    intro i h h0
    simp [contribsAt]
  | cons c cs ih =>
    intro g g' hacc
    simp only [accumulateAll] at hacc
    rcases haccum : g.accumulate_tangent c.1 c.2 with _ | g1 <;>
      rw [haccum] at hacc
    · exact absurd hacc (by simp)
    simp only [ObjGeometry.accumulate_tangent] at haccum
    rcases hget? : g.tangents.get? c.1 with _ | acc <;> rw [hget?] at haccum
    · exact absurd haccum (by simp)
    simp only [Option.some.injEq] at haccum
    subst haccum
    obtain ⟨hlen1, hget1⟩ := ih hacc
    have hj : c.1 < g.tangents.length := (List.get?_eq_some.mp hget?).1
    have hlen2 := List.length_set g.tangents c.1
      (⟨acc.x + c.2.x, acc.y + c.2.y, acc.z + c.2.z, c.2.w⟩ : Tangent)
    refine ⟨hlen1.trans hlen2, ?_⟩
    intro i h h0
    have h1 : i < (g.tangents.set c.1
        ⟨acc.x + c.2.x, acc.y + c.2.y, acc.z + c.2.z, c.2.w⟩).length :=
      hlen2.symm ▸ h0
    by_cases hci : c.1 = i
    · subst hci
      have hgw : g.tangents.get ⟨c.1, h0⟩ = acc := by
        have hq := hget?
        rw [List.get?_eq_getElem?] at hq
        simp only [List.get_eq_getElem]
        rw [List.getElem_eq_iff]
        exact hq
      have hg1get : (g.tangents.set c.1
          ⟨acc.x + c.2.x, acc.y + c.2.y, acc.z + c.2.z, c.2.w⟩).get ⟨c.1, h1⟩ =
          ⟨acc.x + c.2.x, acc.y + c.2.y, acc.z + c.2.z, c.2.w⟩ :=
        List.get_set_eq h1
      rw [hget1 c.1 h h1, hg1get, contribsAt_cons_eq rfl, hgw]
      simp only [List.map_cons, List.sum_cons, Tangent.mk.injEq]
      refine ⟨by ring, by ring, by ring, ?_⟩
      generalize contribsAt c.1 cs = l
      cases l with
      | nil => simp
      | cons d ds =>
        rw [List.getLast?_cons_cons]
        rcases hlast : (d :: ds).getLast? with _ | t
        · exact absurd hlast (by simp)
        · rfl
    · have hg1get : (g.tangents.set c.1
          ⟨acc.x + c.2.x, acc.y + c.2.y, acc.z + c.2.z, c.2.w⟩).get ⟨i, h1⟩ =
          g.tangents.get ⟨i, h0⟩ :=
        List.get_set_ne hci h1
      rw [hget1 i h h1, hg1get, contribsAt_cons_ne hci]

/-- **C10, confirmed.**  Under the adapter built by `ObjGeometry::new`,
every accumulator starts at `[0, 0, 0, 1]`, and after any completed
sequence of `accumulate_tangent` contributions, the entry at each output
vertex holds the componentwise *sums* of the first three components of the
contributions targeting it, while its fourth (handedness) component is the
fourth component of the *last* contribution written to it — `1` only if it
received none. -/
theorem c10_accumulate_sums_xyz_overwrites_w (ps : List Position)
    (ns : List Normal) (ts : List TexCoord) (idx : List Nat)
    (cs : List (Nat × Tangent)) (g' : ObjGeometry)
    (hacc : accumulateAll (ObjGeometry.new ps ns ts idx) cs = some g') :
    (ObjGeometry.new ps ns ts idx).tangents =
      List.replicate ps.length ⟨0, 0, 0, 1⟩ ∧
    ∀ (i : Nat) (h : i < g'.tangents.length),
      g'.tangents.get ⟨i, h⟩ =
        ⟨((contribsAt i cs).map Tangent.x).sum,
         ((contribsAt i cs).map Tangent.y).sum,
         ((contribsAt i cs).map Tangent.z).sum,
         ((contribsAt i cs).getLast?).elim 1 Tangent.w⟩ := by
  obtain ⟨hlen, hget⟩ := accumulateAll_get hacc
  refine ⟨rfl, ?_⟩
  intro i h
  have h0 : i < (ObjGeometry.new ps ns ts idx).tangents.length := hlen ▸ h
  have hinit : (ObjGeometry.new ps ns ts idx).tangents.get ⟨i, h0⟩ =
      ⟨0, 0, 0, 1⟩ := by
    simp [ObjGeometry.new]
  rw [hget i h h0, hinit]
  simp

/-- Concrete contribution sequence for the C10 witness: two contributions
to vertex `0` with different handedness signs. -/
def w10Calls : List (Nat × Tangent) :=
  [(0, ⟨1, 2, 3, -1⟩), (0, ⟨10, 20, 30, 1⟩)]

theorem c10_accumulate_sums_xyz_overwrites_w_witness :
    ∃ g', accumulateAll (ObjGeometry.new [⟨0, 0, 0⟩] [] [] []) w10Calls =
        some g' ∧
      ∀ h : 0 < g'.tangents.length,
        g'.tangents.get ⟨0, h⟩ = ⟨11, 22, 33, 1⟩ := by
  have hacc : accumulateAll (ObjGeometry.new [⟨0, 0, 0⟩] [] [] []) w10Calls =
      some ⟨[⟨0, 0, 0⟩], [], [], [], [⟨11, 22, 33, 1⟩]⟩ := by
    simp only [accumulateAll, ObjGeometry.accumulate_tangent, ObjGeometry.new,
      w10Calls]
    norm_num
  refine ⟨_, hacc, ?_⟩
  intro h
  rw [(c10_accumulate_sums_xyz_overwrites_w [⟨0, 0, 0⟩] [] [] [] w10Calls _
    hacc).2 0 h]
  norm_num [contribsAt, w10Calls, List.filterMap_cons]

/-! ## Claim C5 — the cube scenario -/

theorem resolvePosition_isSome {o : Object} {k : Key}
    (h : k.1.v < o.vertices.length) : (resolvePosition o k).isSome := by
  simp [resolvePosition, List.get?_eq_getElem?, h]

theorem resolveNormal_isSome {o : Object} {k : Key}
    (h : k.1.n.all (fun j => decide (j < o.normals.length)) = true) :
    (resolveNormal o k).isSome := by
  rcases hn : k.1.n with _ | j
  · simp [resolveNormal, hn]
  · rw [hn] at h
    simp only [Option.all, decide_eq_true_eq] at h
    simp [resolveNormal, hn, List.get?_eq_getElem?, h]

theorem resolveTexCoord_isSome {o : Object} {k : Key}
    (h : k.1.t.all (fun j => decide (j < o.tex_vertices.length)) = true) :
    (resolveTexCoord o k).isSome := by
  rcases ht : k.1.t with _ | j
  · simp [resolveTexCoord, ht]
  · rw [ht] at h
    simp only [Option.all, decide_eq_true_eq] at h
    simp [resolveTexCoord, ht, List.get?_eq_getElem?, h]

/-- The 12 triangle shapes of the cube test input (obj.rs lines 235–250),
as parsed by `wavefront_obj` (indices made 0-based). -/
def cubeShapes : List Shape :=
  [⟨.Triangle ⟨0, some 0, some 0⟩ ⟨1, some 1, some 0⟩ ⟨2, some 2, some 0⟩⟩,
  ⟨.Triangle ⟨2, some 2, some 0⟩ ⟨1, some 1, some 0⟩ ⟨3, some 3, some 0⟩⟩,
  ⟨.Triangle ⟨2, some 0, some 1⟩ ⟨3, some 1, some 1⟩ ⟨4, some 2, some 1⟩⟩,
  ⟨.Triangle ⟨4, some 2, some 1⟩ ⟨3, some 1, some 1⟩ ⟨5, some 3, some 1⟩⟩,
  ⟨.Triangle ⟨4, some 3, some 2⟩ ⟨5, some 2, some 2⟩ ⟨6, some 1, some 2⟩⟩,
  ⟨.Triangle ⟨6, some 1, some 2⟩ ⟨5, some 2, some 2⟩ ⟨7, some 0, some 2⟩⟩,
  ⟨.Triangle ⟨6, some 0, some 3⟩ ⟨7, some 1, some 3⟩ ⟨0, some 2, some 3⟩⟩,
  ⟨.Triangle ⟨0, some 2, some 3⟩ ⟨7, some 1, some 3⟩ ⟨1, some 3, some 3⟩⟩,
  ⟨.Triangle ⟨1, some 0, some 4⟩ ⟨7, some 1, some 4⟩ ⟨3, some 2, some 4⟩⟩,
  ⟨.Triangle ⟨3, some 2, some 4⟩ ⟨7, some 1, some 4⟩ ⟨5, some 3, some 4⟩⟩,
  ⟨.Triangle ⟨6, some 0, some 5⟩ ⟨0, some 1, some 5⟩ ⟨4, some 2, some 5⟩⟩,
  ⟨.Triangle ⟨4, some 2, some 5⟩ ⟨0, some 1, some 5⟩ ⟨2, some 3, some 5⟩⟩]

/-- The single geometry of the cube input (no `usemtl`). -/
def cubeGeom : Geometry := ⟨none, cubeShapes⟩

/-- The cube object: 8 vertices, 4 texture vertices, 6 normals. -/
def cubeObj : Object :=
  ⟨"", [⟨-1, -1, 1⟩, ⟨1, -1, 1⟩, ⟨-1, 1, 1⟩, ⟨1, 1, 1⟩, ⟨-1, 1, -1⟩, ⟨1, 1, -1⟩, ⟨-1, -1, -1⟩, ⟨1, -1, -1⟩],
    [⟨0, 0, 0⟩, ⟨1, 0, 0⟩, ⟨0, 1, 0⟩, ⟨1, 1, 0⟩],
    [⟨0, 0, 1⟩, ⟨0, 1, 0⟩, ⟨0, 0, -1⟩, ⟨0, -1, 0⟩, ⟨1, 0, 0⟩, ⟨-1, 0, 0⟩],
    [cubeGeom]⟩

/-- The parsed cube `ObjSet`. -/
def cubeSet : ObjSet := ⟨none, [cubeObj]⟩

/-- The corner keys of the cube (handedness is `1` throughout). -/
def cubeTris : List (List Key) :=
  [[(⟨0, some 0, some 0⟩, 1), (⟨1, some 1, some 0⟩, 1), (⟨2, some 2, some 0⟩, 1)],
  [(⟨2, some 2, some 0⟩, 1), (⟨1, some 1, some 0⟩, 1), (⟨3, some 3, some 0⟩, 1)],
  [(⟨2, some 0, some 1⟩, 1), (⟨3, some 1, some 1⟩, 1), (⟨4, some 2, some 1⟩, 1)],
  [(⟨4, some 2, some 1⟩, 1), (⟨3, some 1, some 1⟩, 1), (⟨5, some 3, some 1⟩, 1)],
  [(⟨4, some 3, some 2⟩, 1), (⟨5, some 2, some 2⟩, 1), (⟨6, some 1, some 2⟩, 1)],
  [(⟨6, some 1, some 2⟩, 1), (⟨5, some 2, some 2⟩, 1), (⟨7, some 0, some 2⟩, 1)],
  [(⟨6, some 0, some 3⟩, 1), (⟨7, some 1, some 3⟩, 1), (⟨0, some 2, some 3⟩, 1)],
  [(⟨0, some 2, some 3⟩, 1), (⟨7, some 1, some 3⟩, 1), (⟨1, some 3, some 3⟩, 1)],
  [(⟨1, some 0, some 4⟩, 1), (⟨7, some 1, some 4⟩, 1), (⟨3, some 2, some 4⟩, 1)],
  [(⟨3, some 2, some 4⟩, 1), (⟨7, some 1, some 4⟩, 1), (⟨5, some 3, some 4⟩, 1)],
  [(⟨6, some 0, some 5⟩, 1), (⟨0, some 1, some 5⟩, 1), (⟨4, some 2, some 5⟩, 1)],
  [(⟨4, some 2, some 5⟩, 1), (⟨0, some 1, some 5⟩, 1), (⟨2, some 3, some 5⟩, 1)]]

/-- **C5, confirmed** (for the parsed form of the cube test input; UTF-8
decoding and `obj::parse` belong to external collaborators).  Whenever the
external tangent algorithm lets the load of the cube succeed, the output
has exactly one geometry, whose vertex arrays hold exactly the 24 distinct
attribute combinations (4 per face × 6 faces: positions repeat, per-face
normals differ) and whose index buffer has length 36 = 3 × 12. -/
theorem c5_cube_scenario (runOf : ObjGeometry → TangentRun)
    (outs : List (MeshData × Option String))
    (h : load_from_data runOf cubeSet = .ok outs) :
    outs.length = 1 ∧
      ∀ p ∈ outs, p.1.positions.length = 24 ∧ p.1.indices.length = 36 := by
  have htris : trisOf cubeObj cubeGeom.shapes = some cubeTris := by
    simp [trisOf, cubeObj, cubeGeom, cubeShapes, cubeTris, handedness_eq_one]
  have hvb : ∀ k ∈ btreeSet cubeTris.flatten,
      k.1.v < cubeObj.vertices.length ∧
      k.1.t.all (fun j => decide (j < cubeObj.tex_vertices.length)) = true ∧
      k.1.n.all (fun j => decide (j < cubeObj.normals.length)) = true := by
    decide
  obtain ⟨ps, hps⟩ := mapPanic_isSome
    (fun k hk => resolvePosition_isSome (hvb k hk).1)
  obtain ⟨ns, hns⟩ := mapPanic_isSome
    (fun k hk => resolveNormal_isSome (hvb k hk).2.2)
  obtain ⟨ts, hts⟩ := mapPanic_isSome
    (fun k hk => resolveTexCoord_isSome (hvb k hk).2.1)
  have hps' : positionsOf cubeObj (btreeSet cubeTris.flatten) = some ps := hps
  have hns' : normalsOf cubeObj (btreeSet cubeTris.flatten) = some ns := hns
  have hts' : texCoordsOf cubeObj (btreeSet cubeTris.flatten) = some ts := hts
  have hpl : ps.length = 24 := (mapPanic_length hps).trans (by decide)
  have hrl : (reindexOf cubeTris).length = 36 := by decide
  have hobjs : cubeSet.objects = [cubeObj] := rfl
  have hgeo : cubeObj.geometry = [cubeGeom] := rfl
  rcases hG : loadGeometry runOf cubeObj cubeGeom with _ | e | x
  · rw [load_from_data, hobjs] at h
    simp only [loadObjects, loadGeoms, hgeo, hG] at h
    exact LoadResult.noConfusion h
  · rw [load_from_data, hobjs] at h
    simp only [loadObjects, loadGeoms, hgeo, hG] at h
    exact LoadResult.noConfusion h
  · rw [load_from_data, hobjs] at h
    simp only [loadObjects, loadGeoms, hgeo, hG, List.append_nil,
      LoadResult.ok.injEq] at h
    subst h
    simp only [loadGeometry, htris, hps', hns', hts'] at hG
    rcases hrt : runTangent
        (runOf (ObjGeometry.new ps ns ts (reindexOf cubeTris)))
        (ObjGeometry.new ps ns ts (reindexOf cubeTris)) with _ | br
    · rw [hrt] at hG
      exact absurd hG (by simp)
    · rw [hrt] at hG
      obtain ⟨b, g2⟩ := br
      cases b
      · exact absurd hG (by simp)
      · simp only [LoadResult.ok.injEq] at hG
        subst hG
        refine ⟨rfl, ?_⟩
        intro p hp
        rcases List.mem_singleton.mp hp with rfl
        exact ⟨hpl, hrl⟩

theorem c5_cube_scenario_witness :
    ∃ outs, load_from_data (fun _ => ⟨true, []⟩) cubeSet = .ok outs ∧
      outs.length = 1 ∧
      ∀ p ∈ outs, p.1.positions.length = 24 ∧ p.1.indices.length = 36 := by
  have htris : trisOf cubeObj cubeGeom.shapes = some cubeTris := by
    simp [trisOf, cubeObj, cubeGeom, cubeShapes, cubeTris, handedness_eq_one]
  have hvb : ∀ k ∈ btreeSet cubeTris.flatten,
      k.1.v < cubeObj.vertices.length ∧
      k.1.t.all (fun j => decide (j < cubeObj.tex_vertices.length)) = true ∧
      k.1.n.all (fun j => decide (j < cubeObj.normals.length)) = true := by
    decide
  obtain ⟨ps, hps⟩ := mapPanic_isSome
    (fun k hk => resolvePosition_isSome (hvb k hk).1)
  obtain ⟨ns, hns⟩ := mapPanic_isSome
    (fun k hk => resolveNormal_isSome (hvb k hk).2.2)
  obtain ⟨ts, hts⟩ := mapPanic_isSome
    (fun k hk => resolveTexCoord_isSome (hvb k hk).2.1)
  have hps' : positionsOf cubeObj (btreeSet cubeTris.flatten) = some ps := hps
  have hns' : normalsOf cubeObj (btreeSet cubeTris.flatten) = some ns := hns
  have hts' : texCoordsOf cubeObj (btreeSet cubeTris.flatten) = some ts := hts
  have hobjs : cubeSet.objects = [cubeObj] := rfl
  have hgeo : cubeObj.geometry = [cubeGeom] := rfl
  have hload : load_from_data (fun _ => ⟨true, []⟩) cubeSet =
      .ok [(⟨ps, ns,
        (ObjGeometry.new ps ns ts (reindexOf cubeTris)).get_tangents, ts,
        reindexOf cubeTris⟩, cubeGeom.material_name)] := by
    rw [load_from_data, hobjs]
    simp only [loadObjects, loadGeoms, hgeo, loadGeometry, htris, hps', hns',
      hts', runTangent, replayCalls, List.append_nil]
    rfl
  exact ⟨_, hload, c5_cube_scenario _ _ hload⟩

end ObjRs
